import Mathlib

/-!
Verification development for `metalsmith-plugin-kit` (src/lib/index.js).

The JavaScript module is shallowly embedded: each exported function is
translated into a Lean definition over explicit data, promises are replaced
by their eventual settlement (`Except`), and the asynchronous fan-out of the
middleware is given a timed semantics (each started invocation carries the
time at which it settles).
-/

set_option autoImplicit false

namespace PluginKit

/-- Outcome of a JS function invoked directly (no completion callback
appended): it can return a plain value (`none` models `undefined`), return a
thenable that later settles, or throw synchronously.  `V` is the type of JS
values used both as results and as (truthy) errors. -/
inductive DirectOutcome (V : Type) where
  | value (v : Option V)
  | thenable (r : Except V (Option V))
  | throws (e : V)

/-- Behaviour of a JS function towards the completion callback that
`callFunction` appends as the extra final argument: it either invokes the
callback with a truthy error, invokes it with a falsy error and a result
value, or throws synchronously before ever invoking it. -/
inductive CbAction (V : Type) where
  | callErr (e : V)
  | callOk (v : Option V)
  | throwBefore (e : V)

/-- Full behaviour of a JS function when called with a completion callback
appended: the interaction with the callback, plus the value the function
also returns directly (which `callFunction` discards: only the callback
settles the promise on this path). -/
structure CbBehavior (V : Type) where
  action : CbAction V
  returned : Option V

/-- Model of a JS function value.  `length` is the number of declared formal
parameters (JS `fn.length`).  `directCall` is its behaviour when invoked
with the given argument list and no appended callback; note that
`fn.apply(null, undefined)` invokes the function with zero arguments, which
is why absent `args` reuses `directCall []`.  `cbCall` is its behaviour when
`callFunction` appends its two-argument completion function after the given
arguments. -/
structure JSFunction (V : Type) where
  length : Nat
  directCall : List V → DirectOutcome V
  cbCall : List V → CbBehavior V

/-- Settlement of `new Promise((resolve) => { result = fn.apply(null, args); resolve(result); })`:
a synchronous throw rejects the promise, a returned thenable is adopted, and
a plain returned value fulfills it. -/
def directSettle {V : Type} : DirectOutcome V → Except V (Option V)
  | .value v => .ok v
  | .thenable r => r
  | .throws e => .error e

/-- Shallow embedding of `exports.callFunction` (src/lib/index.js, lines
125-151), with the returned promise replaced by its settlement.  `fn = none`
models a falsy `fn` (immediately resolved promise with no value);
`args = none` models absent `args`, in which case the guard
`args && fn.length > args.length` is falsy and the direct branch runs.  When
`args` is an array (even empty) and `fn.length > args.length`, the callback
branch runs and only the completion callback settles the promise; a
synchronous throw inside the promise executor rejects it. -/
def callFunction {V : Type} (fn : Option (JSFunction V)) (args : Option (List V)) :
    Except V (Option V) :=
  match fn with
  | none => .ok none
  | some f =>
    match args with
    | some xs =>
      if f.length > xs.length then
        match (f.cbCall xs).action with
        | .callErr e => .error e
        | .callOk v => .ok v
        | .throwBefore e => .error e
      else
        directSettle (f.directCall xs)
    | none => directSettle (f.directCall [])

/-- C6: with a supplied argument list, `callFunction` uses the
completion-callback convention exactly when the callable declares strictly
more formal parameters than the number of supplied arguments: on that path
the promise rejects with the error when the callback is invoked with a
truthy error and otherwise fulfills with the provided value (whatever the
callable also returned directly); on the other path the callable is called
directly and no callback is appended. -/
theorem callFunction_callback_convention {V : Type} (f : JSFunction V) (xs : List V) :
    (xs.length < f.length →
      (∀ e, (f.cbCall xs).action = .callErr e → callFunction (some f) (some xs) = .error e) ∧
      (∀ v, (f.cbCall xs).action = .callOk v → callFunction (some f) (some xs) = .ok v)) ∧
    (¬ xs.length < f.length →
      callFunction (some f) (some xs) = directSettle (f.directCall xs)) := by
  constructor
  · intro h
    constructor <;> intro x hx <;> simp [callFunction, h, hx]
  · intro h
    simp [callFunction, h]

/-- Concrete JS function taking one formal parameter whose callback branch
reports the error `boom` while also directly returning a value. -/
def cbErrFun : JSFunction String where
  length := 1
  directCall := fun _ => .value none
  cbCall := fun _ => { action := .callErr "boom", returned := some "ignored" }

/-- Witness for C6 at a concrete input: `cbErrFun` declares one parameter,
zero arguments are supplied, and the resulting promise rejects with the
error handed to the completion callback. -/
theorem callFunction_callback_convention_witness :
    callFunction (some cbErrFun) (some []) = .error "boom" :=
  ((callFunction_callback_convention cbErrFun []).1 (by decide)).1 "boom" rfl

/-- C10: with `args` absent, the callback convention is never used: the
callable is invoked directly (with no arguments, as `fn.apply(null,
undefined)` does) and the promise settles from its direct outcome; moreover
the result depends only on `directCall`, so the declared parameter count and
the callback behaviour are irrelevant. -/
theorem callFunction_no_args_direct {V : Type} (f g : JSFunction V) :
    callFunction (some f) none = directSettle (f.directCall []) ∧
    (f.directCall = g.directCall → callFunction (some f) none = callFunction (some g) none) := by
  refine ⟨rfl, fun h => ?_⟩
  show directSettle (f.directCall []) = directSettle (g.directCall [])
  rw [h]

/-- Concrete JS function declaring five formal parameters that directly
returns the value `direct`. -/
def directFun : JSFunction String where
  length := 5
  directCall := fun _ => .value (some "direct")
  cbCall := fun _ => { action := .callErr "never", returned := none }

/-- Concrete JS function declaring zero formal parameters with the same
direct behaviour as `directFun` but a different callback behaviour. -/
def directFunZero : JSFunction String where
  length := 0
  directCall := fun _ => .value (some "direct")
  cbCall := fun _ => { action := .callOk none, returned := none }

/-- Witness for C10 at a concrete input: even though `directFun` declares
five formal parameters, absent `args` forces the direct branch, and the
settlement agrees with the zero-parameter variant. -/
theorem callFunction_no_args_direct_witness :
    callFunction (some directFun) none = Except.ok (some "direct") ∧
    callFunction (some directFun) none = callFunction (some directFunZero) none :=
  ⟨(callFunction_no_args_direct directFun directFunZero).1,
   (callFunction_no_args_direct directFun directFunZero).2 rfl⟩

/-- JS values as handled by `clone` and `defaultOptions`.  `prim` covers
every non-object value (strings, numbers, booleans, functions, `undefined`)
together with `null`: all of them are returned unchanged by `clone` and fail
the `override && typeof override === "object"` guard.  `regexp` is an opaque
RegExp instance (returned unchanged by `clone`).  Objects and arrays carry
their own enumerable entries in `Object.keys` order. -/
inductive JSValue where
  | prim (s : String)
  | regexp (id : Nat)
  | arr (elems : List JSValue)
  | obj (fields : List (String × JSValue))

mutual

/-- Shallow embedding of `exports.clone` (src/lib/index.js, lines 207-231):
non-objects and RegExp instances are returned as-is, arrays and objects are
rebuilt key by key with recursively cloned values. -/
def clone : JSValue → JSValue
  | .prim s => .prim s
  | .regexp i => .regexp i
  | .arr es => .arr (cloneList es)
  | .obj fs => .obj (cloneFields fs)

/-- Clone of every element of an array. -/
def cloneList : List JSValue → List JSValue
  | [] => []
  | v :: vs => clone v :: cloneList vs

/-- Clone of every value of an object, keys kept in order. -/
def cloneFields : List (String × JSValue) → List (String × JSValue)
  | [] => []
  | (k, v) :: fs => (k, clone v) :: cloneFields fs

end

/-- JS object assignment `o[k] = v`: an existing key keeps its position and
takes the new value, a new key is appended at the end. -/
def objSet (o : List (String × JSValue)) (k : String) (v : JSValue) :
    List (String × JSValue) :=
  match o with
  | [] => [(k, v)]
  | (k0, v0) :: rest => if k0 = k then (k0, v) :: rest else (k0, v0) :: objSet rest k v

/-- JS `Object.prototype.hasOwnProperty.call(o, k)`. -/
def hasKey (o : List (String × JSValue)) (k : String) : Bool :=
  o.any (fun kv => kv.1 = k)

/-- Value stored in `o` under key `k`, when present. -/
def objLookup (o : List (String × JSValue)) (k : String) : Option JSValue :=
  match o with
  | [] => none
  | (k0, v0) :: rest => if k0 = k then some v0 else objLookup rest k

/-- Guard `override && typeof override === "object"`: objects, arrays and
RegExp instances are truthy objects; every `prim` value (including `null`)
fails the guard. -/
def isTruthyObject : JSValue → Bool
  | .prim _ => false
  | _ => true

/-- Own enumerable entries in `Object.keys` order: the fields of an object,
the index-keyed elements of an array, and nothing for other object values
such as RegExp instances. -/
def ownEntries : JSValue → List (String × JSValue)
  | .obj fs => fs
  | .arr es => es.enum.map (fun p => (toString p.1, p.2))
  | _ => []

/-- Shallow embedding of `exports.defaultOptions` (src/lib/index.js, lines
263-281): build a fresh object holding a clone of every default value, then,
when the override is a truthy object, walk its own keys and overwrite the
entries whose key the result already has with a clone of the override
value. -/
def defaultOptions (defaults : List (String × JSValue)) (override : Option JSValue) :
    List (String × JSValue) :=
  let result := defaults.foldl (fun r kv => objSet r kv.1 (clone kv.2)) []
  match override with
  | some ov =>
    if isTruthyObject ov then
      (ownEntries ov).foldl
        (fun r kv => if hasKey r kv.1 then objSet r kv.1 (clone kv.2) else r) result
    else
      result
  | none => result

theorem hasKey_iff_mem (o : List (String × JSValue)) (k : String) :
    hasKey o k = true ↔ k ∈ o.map Prod.fst := by
  simp only [hasKey, List.any_eq_true, List.mem_map, decide_eq_true_eq]

theorem hasKey_eq_false_iff (o : List (String × JSValue)) (k : String) :
    hasKey o k = false ↔ ∀ kv ∈ o, kv.1 ≠ k := by
  constructor
  · intro h kv hkv he
    have ht : hasKey o k = true :=
      (hasKey_iff_mem o k).mpr (he ▸ List.mem_map_of_mem Prod.fst hkv)
    rw [h] at ht
    cases ht
  · intro h
    cases hcase : hasKey o k with
    | false => rfl
    | true =>
      obtain ⟨kv, hkv, hk⟩ := List.mem_map.mp ((hasKey_iff_mem o k).mp hcase)
      exact absurd hk (h kv hkv)

theorem objLookup_eq_none_of_not_mem {o : List (String × JSValue)} {k : String}
    (h : k ∉ o.map Prod.fst) : objLookup o k = none := by
  induction o with
  | nil => rfl
  | cons kv rest ih =>
    obtain ⟨k0, v0⟩ := kv
    simp only [List.map_cons, List.mem_cons, not_or] at h
    simp only [objLookup]
    rw [if_neg (fun he => h.1 he.symm)]
    exact ih h.2

theorem objSet_of_not_mem {o : List (String × JSValue)} {k : String} {v : JSValue}
    (h : k ∉ o.map Prod.fst) : objSet o k v = o ++ [(k, v)] := by
  induction o with
  | nil => rfl
  | cons kv rest ih =>
    obtain ⟨k0, v0⟩ := kv
    simp only [List.map_cons, List.mem_cons, not_or] at h
    simp only [objSet]
    rw [if_neg (fun he => h.1 he.symm)]
    simp [ih h.2]

theorem objSet_eq_map_of_nodup {o : List (String × JSValue)} {k : String} {v : JSValue}
    (hn : (o.map Prod.fst).Nodup) (h : hasKey o k = true) :
    objSet o k v = o.map (fun kv => if kv.1 = k then (kv.1, v) else kv) := by
  induction o with
  | nil => simp [hasKey] at h
  | cons kv rest ih =>
    obtain ⟨k0, v0⟩ := kv
    simp only [List.map_cons, List.nodup_cons] at hn
    by_cases hk : k0 = k
    · subst hk
      have hrest : rest.map (fun kv => if kv.1 = k0 then (kv.1, v) else kv) = rest := by
        have hcongr : ∀ kv ∈ rest, (if kv.1 = k0 then (kv.1, v) else kv) = id kv := by
          intro kv hkv
          have hne : kv.1 ≠ k0 := fun he => hn.1 (he ▸ List.mem_map_of_mem Prod.fst hkv)
          simp [hne]
        rw [List.map_congr_left hcongr, List.map_id]
      simp [objSet, hrest]
    · have h2 : hasKey rest k = true := by
        simp only [hasKey, List.any_cons, Bool.or_eq_true, decide_eq_true_eq] at h ⊢
        rcases h with h | h
        · exact absurd h hk
        · exact h
      simp only [objSet, if_neg hk, List.map_cons, ih hn.2 h2, if_neg hk]

theorem foldl_objSet_clone_eq (ds : List (String × JSValue)) :
    ∀ acc : List (String × JSValue),
      (ds.map Prod.fst).Nodup →
      (∀ x ∈ ds.map Prod.fst, x ∉ acc.map Prod.fst) →
      ds.foldl (fun r kv => objSet r kv.1 (clone kv.2)) acc
        = acc ++ ds.map (fun kv => (kv.1, clone kv.2)) := by
  induction ds with
  | nil => intro acc _ _; simp
  | cons kv rest ih =>
    intro acc hn hdisj
    obtain ⟨k0, v0⟩ := kv
    simp only [List.map_cons, List.nodup_cons] at hn
    rw [List.foldl_cons]
    have hk0 : (k0 : String) ∉ acc.map Prod.fst := hdisj k0 (by simp)
    rw [objSet_of_not_mem hk0]
    rw [ih (acc ++ [(k0, clone v0)]) hn.2 ?_]
    · simp
    · intro x hx
      simp only [List.map_append, List.mem_append, not_or]
      refine ⟨hdisj x (by simp [hx]), ?_⟩
      simp only [List.map_cons, List.map_nil, List.mem_singleton]
      intro he
      exact hn.1 (he ▸ hx)

theorem foldl_override_eq (ov : List (String × JSValue)) :
    ∀ r : List (String × JSValue),
      (r.map Prod.fst).Nodup → (ov.map Prod.fst).Nodup →
      ov.foldl (fun r kv => if hasKey r kv.1 then objSet r kv.1 (clone kv.2) else r) r
        = r.map (fun kv => (kv.1, match objLookup ov kv.1 with
            | some w => clone w
            | none => kv.2)) := by
  induction ov with
  | nil =>
    intro r _ _
    simp [objLookup]
  | cons kvo resto ih =>
    intro r hr ho
    obtain ⟨k0, w0⟩ := kvo
    simp only [List.map_cons, List.nodup_cons] at ho
    rw [List.foldl_cons]
    by_cases hk : hasKey r k0
    · rw [if_pos hk, objSet_eq_map_of_nodup hr hk]
      have hkeys : ((r.map fun kv => if kv.1 = k0 then (kv.1, clone w0) else kv).map Prod.fst)
          = r.map Prod.fst := by
        rw [List.map_map]
        refine List.map_congr_left ?_
        intro kv _
        by_cases h1 : kv.1 = k0 <;> simp [h1]
      rw [ih _ (hkeys ▸ hr) ho.2, List.map_map]
      refine List.map_congr_left ?_
      intro kv _
      have hcons : ∀ k : String,
          objLookup ((k0, w0) :: resto) k = if k0 = k then some w0 else objLookup resto k :=
        fun _ => rfl
      simp only [Function.comp_apply]
      by_cases h1 : kv.1 = k0
      · rw [if_pos h1, hcons kv.1, if_pos h1.symm,
          objLookup_eq_none_of_not_mem (h1 ▸ ho.1 : kv.1 ∉ resto.map Prod.fst)]
      · rw [if_neg h1, hcons kv.1, if_neg (fun he => h1 he.symm)]
    · rw [if_neg hk, ih _ hr ho.2]
      refine List.map_congr_left ?_
      intro kv hkv
      have h1 : kv.1 ≠ k0 := (hasKey_eq_false_iff r k0).mp (Bool.of_not_eq_true hk) kv hkv
      simp only [objLookup]
      rw [if_neg (fun he => h1 he.symm)]

/-- C7: for objects with unique keys, the merge performed by
`defaultOptions` yields exactly the keys of the defaults object, in order;
each key takes a clone of the override value when the override defines that
key, else a clone of the default value, and keys present only in the
override never appear. -/
theorem defaultOptions_merge (ds ov : List (String × JSValue))
    (hd : (ds.map Prod.fst).Nodup) (ho : (ov.map Prod.fst).Nodup) :
    defaultOptions ds (some (.obj ov)) =
      ds.map (fun kv => (kv.1, match objLookup ov kv.1 with
        | some w => clone w
        | none => clone kv.2)) ∧
    (defaultOptions ds (some (.obj ov))).map Prod.fst = ds.map Prod.fst := by
  have hmain : defaultOptions ds (some (.obj ov)) =
      ds.map (fun kv => (kv.1, match objLookup ov kv.1 with
        | some w => clone w
        | none => clone kv.2)) := by
    show (ownEntries (.obj ov)).foldl
        (fun r kv => if hasKey r kv.1 then objSet r kv.1 (clone kv.2) else r)
        (ds.foldl (fun r kv => objSet r kv.1 (clone kv.2)) []) = _
    rw [foldl_objSet_clone_eq ds [] hd (by simp)]
    rw [List.nil_append]
    have hkeys : ((ds.map fun kv => (kv.1, clone kv.2)).map Prod.fst) = ds.map Prod.fst := by
      rw [List.map_map]
      rfl
    rw [show ownEntries (.obj ov) = ov from rfl]
    rw [foldl_override_eq ov _ (hkeys ▸ hd) ho, List.map_map]
    rfl
  refine ⟨hmain, ?_⟩
  rw [hmain, List.map_map]
  rfl

/-- Witness for C7, the concrete example from the claim:
merging defaults with keys a, b against an override defining a and c keeps
exactly keys a (overridden) and b (default); key c is dropped. -/
theorem defaultOptions_merge_witness :
    defaultOptions [("a", .prim "d1"), ("b", .prim "d2")]
        (some (.obj [("a", .prim "o1"), ("c", .prim "ignored")])) =
      [("a", .prim "o1"), ("b", .prim "d2")] :=
  (defaultOptions_merge [("a", .prim "d1"), ("b", .prim "d2")]
      [("a", .prim "o1"), ("c", .prim "ignored")]
      (by decide) (by decide)).1.trans rfl

/-- Options forwarded to the glob library when a pattern element is a
string (micromatch options; the three documented flags). -/
structure MatchOptions where
  basename : Bool := false
  dot : Bool := false
  nocase : Bool := false

/-- One element of a match specification.  A string is compiled through the
glob library; a function is used directly as the predicate (its return
value, of type `R`, is used for its truthiness); any other value is used
through its `test` capability, which covers RegExp instances. -/
inductive MatchItem (R : Type) where
  | str (pattern : String)
  | fn (p : String → R)
  | objTest (t : String → R)

/-- A bare element or an array of elements; `[].concat(match)` normalizes
the former into a one-element list and keeps the latter as-is. -/
inductive MatchList (R : Type) where
  | one (m : MatchItem R)
  | many (ms : List (MatchItem R))

/-- Normalization performed by `[].concat(match)`. -/
def normalizeMatch {R : Type} : MatchList R → List (MatchItem R)
  | .one m => [m]
  | .many ms => ms

/-- Truthiness of a compiled-predicate result: either a boolean produced by
the glob library or by `Array.prototype.some`, or a raw value returned by a
user predicate or by a `test` method, judged by the truthiness function
`tr`. -/
def retTruthy {R : Type} (tr : R → Bool) : Sum Bool R → Bool
  | .inl b => b
  | .inr r => tr r

/-- Compiled per-element predicate (the `match.map` step of
`exports.filenameMatcher`, lines 380-390): a string is handed to the glob
matcher `mm` together with the options, a function is used as-is, any other
value through its bound `test` method. -/
def elemPred {R : Type} (mm : String → MatchOptions → String → Bool)
    (opts : MatchOptions) : MatchItem R → String → Sum Bool R
  | .str pat => fun fname => .inl (mm pat opts fname)
  | .fn p => fun fname => .inr (p fname)
  | .objTest t => fun fname => .inr (t fname)

/-- Shallow embedding of `exports.filenameMatcher` (src/lib/index.js, lines
371-403): the specification is normalized to a list; an empty list compiles
to a predicate that always returns false; a one-element list returns the
raw result of its single compiled predicate; a longer list combines the
compiled predicates with `Array.prototype.some`, which returns the boolean
disjunction of their truthiness. -/
def filenameMatcher {R : Type} (tr : R → Bool) (mm : String → MatchOptions → String → Bool)
    (ml : MatchList R) (opts : MatchOptions) : String → Sum Bool R :=
  match normalizeMatch ml with
  | [] => fun _ => .inl false
  | [m] => elemPred mm opts m
  | ms => fun fname => .inl (ms.any fun m => retTruthy tr (elemPred mm opts m fname))

/-- C8: the compiled predicate is truthy exactly when some element of the
normalized pattern list matches the filename (boolean disjunction over the
per-element predicates), and an empty normalized list compiles to a
predicate that returns false on every filename. -/
theorem filenameMatcher_disjunction {R : Type} (tr : R → Bool)
    (mm : String → MatchOptions → String → Bool) (ml : MatchList R)
    (opts : MatchOptions) (fname : String) :
    retTruthy tr (filenameMatcher tr mm ml opts fname) =
      (normalizeMatch ml).any (fun m => retTruthy tr (elemPred mm opts m fname)) ∧
    (normalizeMatch ml = [] → filenameMatcher tr mm ml opts fname = .inl false) := by
  cases ml with
  | one m =>
    refine ⟨?_, fun h => List.noConfusion h⟩
    simp [filenameMatcher, normalizeMatch]
  | many ms =>
    match ms with
    | [] => exact ⟨rfl, fun _ => rfl⟩
    | [m] =>
      refine ⟨?_, fun h => List.noConfusion h⟩
      simp [filenameMatcher, normalizeMatch]
    | m1 :: m2 :: rest =>
      refine ⟨?_, fun h => List.noConfusion h⟩
      simp [filenameMatcher, normalizeMatch, retTruthy]

/-- Witness for C8 at concrete inputs: the empty list compiles to the
constantly false predicate, and a two-element list of predicate functions
matches a filename matched by its second element. -/
theorem filenameMatcher_disjunction_witness :
    filenameMatcher (fun s : String => s != "") (fun _ _ _ => false) (.many [])
      {} "x" = .inl false ∧
    retTruthy (fun s : String => s != "")
      (filenameMatcher (fun s : String => s != "") (fun _ _ _ => false)
        (.many [.fn (fun _ => ""), .fn (fun fname => fname)]) {} "a.txt") = true :=
  ⟨(filenameMatcher_disjunction (fun s : String => s != "") (fun _ _ _ => false)
      (.many []) {} "x").2 rfl,
   ((filenameMatcher_disjunction (fun s : String => s != "") (fun _ _ _ => false)
      (.many [.fn (fun _ => ""), .fn (fun fname => fname)]) {} "a.txt").1).trans rfl⟩

/-- A file collection: entries from filename to file record, in enumeration
order.  A key with no entry models both a missing key and a deleted record;
the code treats any falsy `files[filename]` as removed. -/
abbrev FileMap (Rec : Type) := List (String × Rec)

/-- Record stored under a filename, when present. -/
def lookupFile {Rec : Type} (fs : FileMap Rec) (k : String) : Option Rec :=
  match fs with
  | [] => none
  | (k0, r) :: rest => if k0 = k then some r else lookupFile rest k

/-- Behaviour of the `before` or `after` hook of a middleware definition, as
seen through `callFunction`: a synchronous mutation of the file collection
performed during the invocation, the delay until the adapted call settles,
and its settlement (error = promise rejection; the fulfillment value is the
value the adapted call resolves with, `none` modelling `undefined`). -/
structure EndHook (Rec V : Type) where
  effect : FileMap Rec → FileMap Rec
  dur : Nat
  result : Except V (Option V)

/-- Behaviour of the `each` hook, for each filename and record it can
receive: a synchronous mutation of the file collection, the delay until the
adapted call settles, and its settlement. -/
structure EachHook (Rec V : Type) where
  effect : String → Rec → FileMap Rec → FileMap Rec
  dur : String → Rec → Nat
  result : String → Rec → Except V (Option V)

/-- Record of one started `each` invocation: the arguments it received
(filename, file record, file collection, context object), the time it
started, the time its adapted call settles, and its outcome. -/
structure EachInv (Rec Ctx V : Type) where
  filename : String
  record : Rec
  files : FileMap Rec
  ctx : Ctx
  start : Nat
  settle : Nat
  result : Except V (Option V)

/-- Dispatch loop of the `each` phase (src/lib/index.js, lines 541-555):
the matched filenames are visited in order; a filename whose record is gone
by its dispatch point contributes `null` to the promise array and is
skipped; otherwise `each` is invoked with `(filename, record, files, ctx)`,
may synchronously mutate the collection, and its promise settles after its
duration. -/
def dispatchEach {Rec Ctx V : Type} (each : EachHook Rec V) (ctx : Ctx) (t : Nat) :
    List String → FileMap Rec → List (EachInv Rec Ctx V) × FileMap Rec
  | [], fs => ([], fs)
  | k :: ks, fs =>
    match lookupFile fs k with
    | none => dispatchEach each ctx t ks fs
    | some r =>
      let inv : EachInv Rec Ctx V :=
        { filename := k, record := r, files := fs, ctx := ctx, start := t,
          settle := t + each.dur k r, result := each.result k r }
      let next := dispatchEach each ctx t ks (each.effect k r fs)
      (inv :: next.1, next.2)

/-- Settlement of `Promise.all` on its rejection side: the earliest
rejection among the started invocations (the first promise to reject wins;
a tie is broken by array order), or `none` when every invocation
fulfills. -/
def firstRejection {Rec Ctx V : Type} : List (EachInv Rec Ctx V) → Option (Nat × V)
  | [] => none
  | inv :: invs =>
    match inv.result, firstRejection invs with
    | .error e, none => some (inv.settle, e)
    | .error e, some te => if te.1 < inv.settle then some te else some (inv.settle, e)
    | .ok _, rest => rest

/-- Fulfillment time of `Promise.all` when every invocation fulfills: the
join settles once the last invocation has settled (`t0` when there are
none). -/
def lastSettle {Rec Ctx V : Type} (t0 : Nat) (invs : List (EachInv Rec Ctx V)) : Nat :=
  invs.foldl (fun m inv => max m inv.settle) t0

/-- Observable trace of one invocation of the produced middleware function:
the settlement time of the `before` phase, every started `each` invocation,
the arguments of the `after` invocation when it happens, and the single
invocation of the completion callback `done` (its time and its first
argument, `none` modelling an absent first argument). -/
structure RunTrace (Rec Ctx V : Type) where
  beforeSettle : Nat
  eachInvs : List (EachInv Rec Ctx V)
  afterCall : Option (FileMap Rec × Ctx)
  doneTime : Nat
  doneArg : Option V

/-- Shallow embedding of the middleware function produced by
`exports.middleware` (src/lib/index.js, lines 534-564), with each hook
abstracted by its synchronous effect on the file collection and the timed
settlement of its adapted call through `callFunction`.  The chain is:
invoke `before(files, ctx)` and wait for its settlement; a rejection skips
straight to `done` with the error.  Otherwise snapshot `Object.keys(files)`
on the mutated collection, filter by the compiled matcher, dispatch `each`
over the surviving matches and join the promise array with `Promise.all`: a
rejection of the join (the earliest failing invocation) skips `after` and
reaches `done` with that error without waiting for the other invocations;
otherwise, once the last invocation has settled, invoke `after(files, ctx)`.
The final `.then(done.bind(null), done)` invokes `done` with the error on
the rejection side; on the fulfillment side `done.bind(null)` only fixes
the `this` binding, so `done` receives the fulfillment value of the
`after` call as its first argument. -/
def middlewareRun {Rec Ctx V : Type} (bef : EndHook Rec V) (each : EachHook Rec V)
    (aft : EndHook Rec V) (matcher : String → Bool) (files : FileMap Rec) (ctx : Ctx) :
    RunTrace Rec Ctx V :=
  let tb := bef.dur
  let fs1 := bef.effect files
  match bef.result with
  | .error e =>
    { beforeSettle := tb, eachInvs := [], afterCall := none, doneTime := tb,
      doneArg := some e }
  | .ok _ =>
    let matched := (fs1.map Prod.fst).filter matcher
    let d := dispatchEach each ctx tb matched fs1
    match firstRejection d.1 with
    | some te =>
      { beforeSettle := tb, eachInvs := d.1, afterCall := none, doneTime := te.1,
        doneArg := some te.2 }
    | none =>
      let tAfter := lastSettle tb d.1 + aft.dur
      match aft.result with
      | .error e =>
        { beforeSettle := tb, eachInvs := d.1, afterCall := some (d.2, ctx),
          doneTime := tAfter, doneArg := some e }
      | .ok v =>
        { beforeSettle := tb, eachInvs := d.1, afterCall := some (d.2, ctx),
          doneTime := tAfter, doneArg := v }

theorem lookupFile_ne_none_of_mem {Rec : Type} {fs : FileMap Rec} {k : String}
    (h : k ∈ fs.map Prod.fst) : lookupFile fs k ≠ none := by
  induction fs with
  | nil => simp at h
  | cons kv rest ih =>
    obtain ⟨k0, r⟩ := kv
    simp only [List.map_cons, List.mem_cons] at h
    by_cases he : k0 = k
    · simp [lookupFile, he]
    · simp only [lookupFile]
      rw [if_neg he]
      rcases h with h | h
      · exact absurd h.symm he
      · exact ih h

theorem dispatchEach_mem {Rec Ctx V : Type} (each : EachHook Rec V) (ctx : Ctx) (t : Nat) :
    ∀ (ks : List String) (fs : FileMap Rec),
      ∀ inv ∈ (dispatchEach each ctx t ks fs : List (EachInv Rec Ctx V) × FileMap Rec).1,
        inv.filename ∈ ks ∧ inv.ctx = ctx ∧ inv.start = t ∧
        lookupFile inv.files inv.filename = some inv.record ∧
        inv.settle = t + each.dur inv.filename inv.record ∧
        inv.result = each.result inv.filename inv.record := by
  intro ks
  induction ks with
  | nil =>
    intro fs inv hinv
    simp [dispatchEach] at hinv
  | cons k ks ih =>
    intro fs inv hinv
    rw [dispatchEach] at hinv
    cases hl : lookupFile fs k with
    | none =>
      rw [hl] at hinv
      obtain ⟨h1, h⟩ := ih fs inv hinv
      exact ⟨List.mem_cons_of_mem k h1, h⟩
    | some r =>
      rw [hl] at hinv
      rcases List.mem_cons.mp hinv with rfl | hm
      · exact ⟨List.mem_cons_self k ks, rfl, rfl, hl, rfl, rfl⟩
      · obtain ⟨h1, h⟩ := ih (each.effect k r fs) inv hm
        exact ⟨List.mem_cons_of_mem k h1, h⟩

theorem dispatchEach_names_sublist {Rec Ctx V : Type} (each : EachHook Rec V) (ctx : Ctx)
    (t : Nat) : ∀ (ks : List String) (fs : FileMap Rec),
      List.Sublist
        ((dispatchEach each ctx t ks fs : List (EachInv Rec Ctx V) × FileMap Rec).1.map
          (fun inv => inv.filename)) ks := by
  intro ks
  induction ks with
  | nil => intro fs; simp [dispatchEach]
  | cons k ks ih =>
    intro fs
    rw [dispatchEach]
    cases hl : lookupFile fs k with
    | none => exact List.Sublist.cons k (ih fs)
    | some r => exact List.Sublist.cons₂ k (ih (each.effect k r fs))

theorem dispatchEach_skip {Rec Ctx V : Type} (each : EachHook Rec V) (ctx : Ctx) (t : Nat)
    (k : String) (ks : List String) (fs : FileMap Rec) (h : lookupFile fs k = none) :
    (dispatchEach each ctx t (k :: ks) fs : List (EachInv Rec Ctx V) × FileMap Rec)
      = dispatchEach each ctx t ks fs := by
  rw [dispatchEach, h]

theorem dispatchEach_of_effect_id {Rec Ctx V : Type} (each : EachHook Rec V) (ctx : Ctx)
    (t : Nat) (heff : ∀ k r fs, each.effect k r fs = fs) :
    ∀ (ks : List String) (fs : FileMap Rec), (∀ k ∈ ks, lookupFile fs k ≠ none) →
      (dispatchEach each ctx t ks fs : List (EachInv Rec Ctx V) × FileMap Rec).1.map
        (fun inv => inv.filename) = ks ∧
      (dispatchEach each ctx t ks fs : List (EachInv Rec Ctx V) × FileMap Rec).2 = fs := by
  intro ks
  induction ks with
  | nil => intro fs _; exact ⟨rfl, rfl⟩
  | cons k ks ih =>
    intro fs hpres
    cases hl : lookupFile fs k with
    | none => exact absurd hl (hpres k (List.mem_cons_self k ks))
    | some r =>
      have h := ih fs (fun k2 hk2 => hpres k2 (List.mem_cons_of_mem k hk2))
      simp only [dispatchEach, hl, heff, List.map_cons]
      exact ⟨by rw [h.1], h.2⟩

theorem firstRejection_eq_none_iff {Rec Ctx V : Type} (invs : List (EachInv Rec Ctx V)) :
    firstRejection invs = none ↔ ∀ inv ∈ invs, ∃ v, inv.result = .ok v := by
  induction invs with
  | nil => simp [firstRejection]
  | cons inv invs ih =>
    cases hr : inv.result with
    | error e =>
      have hsome : firstRejection (inv :: invs) ≠ none := by
        cases hfr : firstRejection invs with
        | none => simp [firstRejection, hr, hfr]
        | some te =>
          by_cases hc : te.1 < inv.settle
          · simp [firstRejection, hr, hfr, hc]
          · simp [firstRejection, hr, hfr, hc]
      constructor
      · intro h; exact absurd h hsome
      · intro h
        obtain ⟨v, hv⟩ := h inv (List.mem_cons_self inv invs)
        rw [hr] at hv
        cases hv
    | ok v =>
      have heq : firstRejection (inv :: invs) = firstRejection invs := by
        simp [firstRejection, hr]
      rw [heq, ih]
      constructor
      · intro h inv' hinv'
        rcases List.mem_cons.mp hinv' with rfl | h2
        · exact ⟨v, hr⟩
        · exact h inv' h2
      · intro h inv' hinv'
        exact h inv' (List.mem_cons_of_mem inv hinv')

theorem firstRejection_eq_some {Rec Ctx V : Type} :
    ∀ (invs : List (EachInv Rec Ctx V)) (t : Nat) (e : V),
      firstRejection invs = some (t, e) →
      (∃ inv ∈ invs, inv.settle = t ∧ inv.result = .error e) ∧
      ∀ inv ∈ invs, ∀ e2, inv.result = .error e2 → t ≤ inv.settle := by
  intro invs
  induction invs with
  | nil => intro t e h; cases h
  | cons inv invs ih =>
    intro t e h
    cases hr : inv.result with
    | ok v =>
      have heq : firstRejection (inv :: invs) = firstRejection invs := by
        simp [firstRejection, hr]
      rw [heq] at h
      obtain ⟨⟨inv2, h2, hs2, hr2⟩, hmin⟩ := ih t e h
      refine ⟨⟨inv2, List.mem_cons_of_mem inv h2, hs2, hr2⟩, ?_⟩
      intro inv' hinv' e2 he2
      rcases List.mem_cons.mp hinv' with rfl | hm
      · rw [hr] at he2; cases he2
      · exact hmin inv' hm e2 he2
    | error e0 =>
      cases hfr : firstRejection invs with
      | none =>
        have heq2 : firstRejection (inv :: invs) = some (inv.settle, e0) := by
          simp [firstRejection, hr, hfr]
        rw [heq2] at h
        injection h with hp
        have h1 : inv.settle = t := congrArg Prod.fst hp
        have h2 : e0 = e := congrArg Prod.snd hp
        subst h1
        subst h2
        refine ⟨⟨inv, List.mem_cons_self inv invs, rfl, hr⟩, ?_⟩
        intro inv' hinv' e2 he2
        rcases List.mem_cons.mp hinv' with rfl | hm
        · exact le_refl _
        · obtain ⟨v, hv⟩ := (firstRejection_eq_none_iff invs).mp hfr inv' hm
          rw [hv] at he2
          cases he2
      | some te =>
        obtain ⟨t', e'⟩ := te
        obtain ⟨⟨inv2, h2, hs2, hr2⟩, hmin⟩ := ih t' e' hfr
        by_cases hc : t' < inv.settle
        · have heq2 : firstRejection (inv :: invs) = some (t', e') := by
            simp [firstRejection, hr, hfr, hc]
          rw [heq2] at h
          injection h with hp
          have hp1 : t' = t := congrArg Prod.fst hp
          have hp2 : e' = e := congrArg Prod.snd hp
          subst hp1
          subst hp2
          refine ⟨⟨inv2, List.mem_cons_of_mem inv h2, hs2, hr2⟩, ?_⟩
          intro inv' hinv' e2 he2
          rcases List.mem_cons.mp hinv' with rfl | hm
          · exact le_of_lt hc
          · exact hmin inv' hm e2 he2
        · have heq2 : firstRejection (inv :: invs) = some (inv.settle, e0) := by
            simp [firstRejection, hr, hfr, hc]
          rw [heq2] at h
          injection h with hp
          have hp1 : inv.settle = t := congrArg Prod.fst hp
          have hp2 : e0 = e := congrArg Prod.snd hp
          subst hp1
          subst hp2
          refine ⟨⟨inv, List.mem_cons_self inv invs, rfl, hr⟩, ?_⟩
          intro inv' hinv' e2 he2
          rcases List.mem_cons.mp hinv' with rfl | hm
          · exact le_refl _
          · exact le_trans (Nat.le_of_not_lt hc) (hmin inv' hm e2 he2)

theorem lastSettle_ge {Rec Ctx V : Type} :
    ∀ (invs : List (EachInv Rec Ctx V)) (t0 : Nat),
      t0 ≤ lastSettle t0 invs ∧ ∀ inv ∈ invs, inv.settle ≤ lastSettle t0 invs := by
  intro invs
  induction invs with
  | nil => intro t0; exact ⟨le_refl _, by simp⟩
  | cons inv invs ih =>
    intro t0
    have hstep : lastSettle t0 (inv :: invs) = lastSettle (max t0 inv.settle) invs := by
      simp [lastSettle]
    have h := ih (max t0 inv.settle)
    rw [hstep]
    refine ⟨le_trans (le_max_left _ _) h.1, ?_⟩
    intro inv' hinv'
    rcases List.mem_cons.mp hinv' with rfl | hm
    · exact le_trans (le_max_right _ _) h.1
    · exact h.2 inv' hm

/-- File-collection state and promise array of the each phase: the snapshot
of keys is taken on the collection mutated by the before hook, filtered by
the matcher, and dispatched. -/
def eachDispatch {Rec Ctx V : Type} (bef : EndHook Rec V) (each : EachHook Rec V)
    (matcher : String → Bool) (files : FileMap Rec) (ctx : Ctx) :
    List (EachInv Rec Ctx V) × FileMap Rec :=
  dispatchEach each ctx bef.dur
    (((bef.effect files).map Prod.fst).filter matcher) (bef.effect files)

theorem middlewareRun_before_error {Rec Ctx V : Type} (bef : EndHook Rec V)
    (each : EachHook Rec V) (aft : EndHook Rec V) (matcher : String → Bool)
    (files : FileMap Rec) (ctx : Ctx) (e : V) (h : bef.result = .error e) :
    middlewareRun bef each aft matcher files ctx =
      { beforeSettle := bef.dur, eachInvs := [], afterCall := none,
        doneTime := bef.dur, doneArg := some e } := by
  simp [middlewareRun, h]

theorem middlewareRun_reject {Rec Ctx V : Type} (bef : EndHook Rec V)
    (each : EachHook Rec V) (aft : EndHook Rec V) (matcher : String → Bool)
    (files : FileMap Rec) (ctx : Ctx) (v : Option V) (hb : bef.result = .ok v)
    (t : Nat) (e : V)
    (hfr : firstRejection (eachDispatch bef each matcher files ctx).1 = some (t, e)) :
    middlewareRun bef each aft matcher files ctx =
      { beforeSettle := bef.dur,
        eachInvs := (eachDispatch bef each matcher files ctx).1,
        afterCall := none, doneTime := t, doneArg := some e } := by
  rw [eachDispatch] at hfr
  simp [middlewareRun, hb, hfr]
  rw [eachDispatch]

theorem middlewareRun_fulfil {Rec Ctx V : Type} (bef : EndHook Rec V)
    (each : EachHook Rec V) (aft : EndHook Rec V) (matcher : String → Bool)
    (files : FileMap Rec) (ctx : Ctx) (v : Option V) (hb : bef.result = .ok v)
    (hfr : firstRejection (eachDispatch bef each matcher files ctx).1 = none) :
    (middlewareRun bef each aft matcher files ctx).eachInvs
        = (eachDispatch bef each matcher files ctx).1 ∧
    (middlewareRun bef each aft matcher files ctx).afterCall
        = some ((eachDispatch bef each matcher files ctx).2, ctx) ∧
    (middlewareRun bef each aft matcher files ctx).doneTime
        = lastSettle bef.dur (eachDispatch bef each matcher files ctx).1 + aft.dur ∧
    (∀ e, aft.result = .error e →
      (middlewareRun bef each aft matcher files ctx).doneArg = some e) ∧
    (∀ w, aft.result = .ok w →
      (middlewareRun bef each aft matcher files ctx).doneArg = w) := by
  rw [eachDispatch] at hfr
  cases ha : aft.result with
  | error e => simp [middlewareRun, eachDispatch, hb, hfr, ha]
  | ok w => simp [middlewareRun, eachDispatch, hb, hfr, ha]

theorem middlewareRun_eachInvs {Rec Ctx V : Type} (bef : EndHook Rec V)
    (each : EachHook Rec V) (aft : EndHook Rec V) (matcher : String → Bool)
    (files : FileMap Rec) (ctx : Ctx) (v : Option V) (hb : bef.result = .ok v) :
    (middlewareRun bef each aft matcher files ctx).eachInvs
      = (eachDispatch bef each matcher files ctx).1 := by
  cases hfr : firstRejection (eachDispatch bef each matcher files ctx).1 with
  | none => exact (middlewareRun_fulfil bef each aft matcher files ctx v hb hfr).1
  | some te =>
    rw [middlewareRun_reject bef each aft matcher files ctx v hb te.1 te.2 (by rw [hfr])]

/-- C4: when the before hook fails, no each invocation is started, the
after hook is never invoked, and the completion callback receives that
error (at the settlement time of the before phase). -/
theorem before_failure_short_circuits {Rec Ctx V : Type} (bef : EndHook Rec V)
    (each : EachHook Rec V) (aft : EndHook Rec V) (matcher : String → Bool)
    (files : FileMap Rec) (ctx : Ctx) (e : V) (h : bef.result = .error e) :
    (middlewareRun bef each aft matcher files ctx).eachInvs = [] ∧
    (middlewareRun bef each aft matcher files ctx).afterCall = none ∧
    (middlewareRun bef each aft matcher files ctx).doneArg = some e ∧
    (middlewareRun bef each aft matcher files ctx).doneTime = bef.dur := by
  rw [middlewareRun_before_error bef each aft matcher files ctx e h]
  exact ⟨rfl, rfl, rfl, rfl⟩

/-- Before hook that fails immediately with the given error. -/
def failBefore (e : String) : EndHook Unit String :=
  { effect := id, dur := 0, result := .error e }

/-- Hook that fulfills immediately with no value and leaves the collection
unchanged. -/
def okHook {Rec V : Type} : EndHook Rec V :=
  { effect := id, dur := 0, result := .ok none }

/-- Each hook that fulfills immediately with no value and never mutates the
collection. -/
def noopEach {Rec V : Type} : EachHook Rec V :=
  { effect := fun _ _ fs => fs, dur := fun _ _ => 0, result := fun _ _ => .ok none }

/-- Two-file collection used by the concrete middleware runs. -/
def cexFiles : FileMap Unit := [("a", ()), ("b", ())]

/-- Witness for C4 at a concrete input: a failing before hook produces no
each invocation, no after invocation, and hands its error to done. -/
theorem before_failure_short_circuits_witness :
    (middlewareRun (failBefore "bad") noopEach okHook (fun _ => true) cexFiles ()).eachInvs
        = [] ∧
    (middlewareRun (failBefore "bad") noopEach okHook (fun _ => true) cexFiles ()).afterCall
        = none ∧
    (middlewareRun (failBefore "bad") noopEach okHook (fun _ => true) cexFiles ()).doneArg
        = some "bad" ∧
    (middlewareRun (failBefore "bad") noopEach okHook (fun _ => true) cexFiles ()).doneTime
        = (failBefore "bad").dur :=
  before_failure_short_circuits (failBefore "bad") noopEach okHook (fun _ => true)
    cexFiles () "bad" rfl

/-- C3: if at least one started each invocation fails, the after hook is
never invoked and the completion callback receives the earliest failure
among the each invocations (the rejection of the join). -/
theorem each_failure_skips_after {Rec Ctx V : Type} (bef : EndHook Rec V)
    (each : EachHook Rec V) (aft : EndHook Rec V) (matcher : String → Bool)
    (files : FileMap Rec) (ctx : Ctx)
    (h : ∃ inv ∈ (middlewareRun bef each aft matcher files ctx).eachInvs,
      ∃ er : V, inv.result = .error er) :
    (middlewareRun bef each aft matcher files ctx).afterCall = none ∧
    ∃ t er, firstRejection (middlewareRun bef each aft matcher files ctx).eachInvs
        = some (t, er) ∧
      (middlewareRun bef each aft matcher files ctx).doneArg = some er ∧
      (∃ inv ∈ (middlewareRun bef each aft matcher files ctx).eachInvs,
        inv.settle = t ∧ inv.result = .error er) ∧
      ∀ inv ∈ (middlewareRun bef each aft matcher files ctx).eachInvs,
        ∀ e2 : V, inv.result = .error e2 → t ≤ inv.settle := by
  cases hb : bef.result with
  | error e =>
    exfalso
    obtain ⟨inv, hinv, _, _⟩ := h
    rw [middlewareRun_before_error bef each aft matcher files ctx e hb] at hinv
    simp at hinv
  | ok v =>
    cases hfr : firstRejection (eachDispatch bef each matcher files ctx).1 with
    | none =>
      exfalso
      obtain ⟨inv, hinv, er, her⟩ := h
      rw [middlewareRun_eachInvs bef each aft matcher files ctx v hb] at hinv
      obtain ⟨w, hw⟩ := (firstRejection_eq_none_iff _).mp hfr inv hinv
      rw [hw] at her
      cases her
    | some te =>
      obtain ⟨t, e⟩ := te
      have hrun := middlewareRun_reject bef each aft matcher files ctx v hb t e hfr
      obtain ⟨hex, hmin⟩ := firstRejection_eq_some _ t e hfr
      rw [hrun]
      exact ⟨rfl, t, e, hfr, rfl, hex, hmin⟩

/-- Each hook whose invocation on filename a fails quickly while the
invocation on any other filename fulfills later; no mutation. -/
def failEachA : EachHook Unit String :=
  { effect := fun _ _ fs => fs,
    dur := fun k _ => if k = "a" then 1 else 5,
    result := fun k _ => if k = "a" then .error "boom" else .ok none }

/-- Witness for C3 at a concrete input: with one failing and one fulfilled
each invocation, after is skipped and done receives the failure. -/
theorem each_failure_skips_after_witness :
    (middlewareRun (okHook : EndHook Unit String) failEachA okHook (fun _ => true)
      cexFiles ()).afterCall = none ∧
    (middlewareRun (okHook : EndHook Unit String) failEachA okHook (fun _ => true)
      cexFiles ()).doneArg = some "boom" := by
  have h := each_failure_skips_after (okHook : EndHook Unit String) failEachA okHook
      (fun _ => true) cexFiles ()
      ⟨{ filename := "a", record := (), files := cexFiles, ctx := (), start := 0,
         settle := 1, result := .error "boom" },
       List.mem_cons_self _ _, "boom", rfl⟩
  obtain ⟨t, er, hfr, hdone, _⟩ := h.2
  have h2 : (some (t, er) : Option (Nat × String)) = some (1, "boom") := hfr.symm.trans rfl
  have her : er = "boom" := congrArg Prod.snd (Option.some.inj h2)
  exact ⟨h.1, her ▸ hdone⟩

/-- After hook that fulfills immediately with the truthy value notError and
leaves the collection unchanged. -/
def valAfter : EndHook Unit String :=
  { effect := id, dur := 0, result := .ok (some "notError") }

/-- Counterexample to C1 as stated: a fully successful run (before
fulfilled, no each rejection, after fulfilled) in which the first argument
passed to the completion callback is not absent: because the chain ends in
`.then(done.bind(null), done)` and `bind(null)` only fixes `this`, done
receives the fulfillment value of the after call. -/
theorem done_success_arg_cex :
    (okHook : EndHook Unit String).result = .ok none ∧
    valAfter.result = .ok (some "notError") ∧
    firstRejection ((middlewareRun (okHook : EndHook Unit String) noopEach valAfter
      (fun _ => true) [] ()).eachInvs) = none ∧
    (middlewareRun (okHook : EndHook Unit String) noopEach valAfter
      (fun _ => true) [] ()).doneArg = some "notError" :=
  ⟨rfl, rfl, rfl, rfl⟩

/-- C1 amended: the completion callback is invoked exactly once per settled
run (the trace carries a single done event); it receives the error of the
first failing phase when one fails, and on a fully successful run it
receives the fulfillment value of the after call as its first argument —
absent exactly when that call fulfills with no value, not regardless of the
value the after hook returned. -/
theorem done_invocation_argument {Rec Ctx V : Type} (bef : EndHook Rec V)
    (each : EachHook Rec V) (aft : EndHook Rec V) (matcher : String → Bool)
    (files : FileMap Rec) (ctx : Ctx) :
    (∀ e, bef.result = .error e →
      (middlewareRun bef each aft matcher files ctx).doneArg = some e) ∧
    (∀ v, bef.result = .ok v →
      (∀ t e, firstRejection (eachDispatch bef each matcher files ctx).1 = some (t, e) →
        (middlewareRun bef each aft matcher files ctx).doneArg = some e) ∧
      (firstRejection (eachDispatch bef each matcher files ctx).1 = none →
        (∀ e, aft.result = .error e →
          (middlewareRun bef each aft matcher files ctx).doneArg = some e) ∧
        (∀ w, aft.result = .ok w →
          (middlewareRun bef each aft matcher files ctx).doneArg = w))) := by
  constructor
  · intro e he
    rw [middlewareRun_before_error bef each aft matcher files ctx e he]
  · intro v hb
    constructor
    · intro t e hfr
      rw [middlewareRun_reject bef each aft matcher files ctx v hb t e hfr]
    · intro hfr
      have h := middlewareRun_fulfil bef each aft matcher files ctx v hb hfr
      exact ⟨h.2.2.2.1, h.2.2.2.2⟩

/-- Witness for the amended C1 at concrete inputs: the three shapes of done
argument, each produced by applying the characterization to a concrete
run: a failing before hand its error to done, a failing each invocation
hands the join rejection to done, and a successful chain hands the after
fulfillment value to done. -/
theorem done_invocation_argument_witness :
    (middlewareRun (failBefore "bad") noopEach okHook (fun _ => true) cexFiles ()).doneArg
        = some "bad" ∧
    (middlewareRun (okHook : EndHook Unit String) failEachA okHook (fun _ => true)
      cexFiles ()).doneArg = some "boom" ∧
    (middlewareRun (okHook : EndHook Unit String) noopEach valAfter (fun _ => true)
      [] ()).doneArg = some "notError" :=
  ⟨(done_invocation_argument (failBefore "bad") noopEach okHook (fun _ => true)
      cexFiles ()).1 "bad" rfl,
   ((done_invocation_argument (okHook : EndHook Unit String) failEachA okHook
      (fun _ => true) cexFiles ()).2 none rfl).1 1 "boom" rfl,
   (((done_invocation_argument (okHook : EndHook Unit String) noopEach valAfter
      (fun _ => true) [] ()).2 none rfl).2 rfl).2 (some "notError") rfl⟩

/-- Counterexample to C2 as stated: a run with two started each
invocations settling at times 1 (rejected) and 5 (fulfilled) in which the
chain settles at time 1 — `Promise.all` rejects at the first rejection, so
the completion callback fires before the other started invocation has
settled. -/
theorem each_join_no_wait_cex :
    ((middlewareRun (okHook : EndHook Unit String) failEachA okHook (fun _ => true)
      cexFiles ()).eachInvs.map (fun inv => inv.settle)) = [1, 5] ∧
    (middlewareRun (okHook : EndHook Unit String) failEachA okHook (fun _ => true)
      cexFiles ()).doneTime = 1 ∧
    ∃ inv ∈ (middlewareRun (okHook : EndHook Unit String) failEachA okHook (fun _ => true)
      cexFiles ()).eachInvs,
      (middlewareRun (okHook : EndHook Unit String) failEachA okHook (fun _ => true)
        cexFiles ()).doneTime < inv.settle :=
  ⟨rfl, rfl,
   ⟨{ filename := "b", record := (), files := cexFiles, ctx := (), start := 0,
      settle := 5, result := .ok none },
    List.mem_cons_of_mem _ (List.mem_cons_self _ _), by decide⟩⟩

/-- C2 amended: when every started each invocation fulfills, the join and
hence the chain settles no earlier than any started invocation; when some
invocation fails, the chain settles exactly when the earliest failure does,
possibly before other started invocations have settled. -/
theorem each_phase_join {Rec Ctx V : Type} (bef : EndHook Rec V)
    (each : EachHook Rec V) (aft : EndHook Rec V) (matcher : String → Bool)
    (files : FileMap Rec) (ctx : Ctx) :
    (firstRejection (middlewareRun bef each aft matcher files ctx).eachInvs = none →
      ∀ inv ∈ (middlewareRun bef each aft matcher files ctx).eachInvs,
        inv.settle ≤ (middlewareRun bef each aft matcher files ctx).doneTime) ∧
    (∀ t e, firstRejection (middlewareRun bef each aft matcher files ctx).eachInvs
        = some (t, e) →
      (middlewareRun bef each aft matcher files ctx).doneTime = t ∧
      ∃ inv ∈ (middlewareRun bef each aft matcher files ctx).eachInvs,
        inv.settle = t ∧ inv.result = .error e) := by
  cases hb : bef.result with
  | error e0 =>
    rw [middlewareRun_before_error bef each aft matcher files ctx e0 hb]
    constructor
    · intro _ inv hinv
      simp at hinv
    · intro t e hfr
      cases hfr
  | ok v =>
    have hinvs := middlewareRun_eachInvs bef each aft matcher files ctx v hb
    rw [hinvs]
    cases hfr : firstRejection (eachDispatch bef each matcher files ctx).1 with
    | none =>
      have h := middlewareRun_fulfil bef each aft matcher files ctx v hb hfr
      constructor
      · intro _ inv hinv
        rw [h.2.2.1]
        exact le_trans ((lastSettle_ge _ bef.dur).2 inv hinv) (Nat.le_add_right _ _)
      · intro t e hfr2
        exact Option.noConfusion hfr2
    | some te =>
      constructor
      · intro hnone
        exact Option.noConfusion hnone
      · intro t e hfr2
        have hte : te = (t, e) := Option.some.inj hfr2
        subst hte
        have hrun := middlewareRun_reject bef each aft matcher files ctx v hb t e hfr
        obtain ⟨hex, _⟩ := firstRejection_eq_some _ t e hfr
        rw [hrun]
        exact ⟨rfl, hex⟩

/-- Witness for the amended C2: on an all-fulfilled concrete run the chain
settles after both invocations (settle times 0, join at 0); on the failing
concrete run the chain settles exactly at the earliest failure, time 1. -/
theorem each_phase_join_witness :
    (∀ inv ∈ (middlewareRun (okHook : EndHook Unit String) noopEach okHook (fun _ => true)
      cexFiles ()).eachInvs,
      inv.settle ≤ (middlewareRun (okHook : EndHook Unit String) noopEach okHook
        (fun _ => true) cexFiles ()).doneTime) ∧
    (middlewareRun (okHook : EndHook Unit String) failEachA okHook (fun _ => true)
      cexFiles ()).doneTime = 1 :=
  ⟨(each_phase_join (okHook : EndHook Unit String) noopEach okHook (fun _ => true)
      cexFiles ()).1 rfl,
   ((each_phase_join (okHook : EndHook Unit String) failEachA okHook (fun _ => true)
      cexFiles ()).2 1 "boom" rfl).1⟩

/-- C5: the each phase dispatches over the snapshot of keys taken after the
before phase settles, filtered by the compiled predicate: every started
invocation received a matched snapshot filename together with the live
collection, the context, and the record stored under its filename at its
dispatch point; with distinct snapshot keys no filename is dispatched
twice; a filename whose record is gone at its dispatch point is skipped
with zero invocations; and when the each hook does not mutate the
collection, each is invoked exactly once per matched snapshot filename, in
order. -/
theorem each_dispatch_exactly_once {Rec Ctx V : Type} (bef : EndHook Rec V)
    (each : EachHook Rec V) (aft : EndHook Rec V) (matcher : String → Bool)
    (files : FileMap Rec) (ctx : Ctx) (v : Option V) (hb : bef.result = .ok v) :
    (∀ inv ∈ (middlewareRun bef each aft matcher files ctx).eachInvs,
      inv.filename ∈ (bef.effect files).map Prod.fst ∧
      matcher inv.filename = true ∧
      inv.ctx = ctx ∧ inv.start = bef.dur ∧
      lookupFile inv.files inv.filename = some inv.record ∧
      inv.result = each.result inv.filename inv.record) ∧
    (((bef.effect files).map Prod.fst).Nodup →
      ((middlewareRun bef each aft matcher files ctx).eachInvs.map
        (fun inv => inv.filename)).Nodup) ∧
    (∀ (k : String) (ks : List String) (fs2 : FileMap Rec), lookupFile fs2 k = none →
      (dispatchEach each ctx bef.dur (k :: ks) fs2
        : List (EachInv Rec Ctx V) × FileMap Rec) = dispatchEach each ctx bef.dur ks fs2) ∧
    ((∀ k r fs2, each.effect k r fs2 = fs2) →
      (middlewareRun bef each aft matcher files ctx).eachInvs.map (fun inv => inv.filename)
        = ((bef.effect files).map Prod.fst).filter matcher) := by
  have hinvs := middlewareRun_eachInvs bef each aft matcher files ctx v hb
  refine ⟨?_, ?_, ?_, ?_⟩
  · intro inv hinv
    rw [hinvs, eachDispatch] at hinv
    obtain ⟨h1, h2, h3, h4, _, h6⟩ := dispatchEach_mem each ctx bef.dur _ _ inv hinv
    have hm := List.mem_filter.mp h1
    exact ⟨hm.1, hm.2, h2, h3, h4, h6⟩
  · intro hnodup
    rw [hinvs, eachDispatch]
    exact (hnodup.filter matcher).sublist (dispatchEach_names_sublist each ctx bef.dur _ _)
  · intro k ks fs2 hnone
    exact dispatchEach_skip each ctx bef.dur k ks fs2 hnone
  · intro heff
    rw [hinvs, eachDispatch]
    refine (dispatchEach_of_effect_id each ctx bef.dur heff _ _ ?_).1
    intro k hk
    exact lookupFile_ne_none_of_mem (List.mem_filter.mp hk).1

/-- Three-file collection used by the dispatch witnesses. -/
def filesABC : FileMap Unit := [("a", ()), ("b", ()), ("c", ())]

/-- Witness for C5 at a concrete input: with three files and a predicate
excluding filename b, the each hook is invoked exactly once for a and once
for c, in snapshot order. -/
theorem each_dispatch_exactly_once_witness :
    (middlewareRun (okHook : EndHook Unit String) noopEach okHook
      (fun f => f != "b") filesABC ()).eachInvs.map (fun inv => inv.filename)
      = ["a", "c"] :=
  ((each_dispatch_exactly_once (okHook : EndHook Unit String) noopEach okHook
      (fun f => f != "b") filesABC () none rfl).2.2.2 (fun _ _ _ => rfl)).trans rfl

/-- C9: a pattern element that is a function is used directly as the match
predicate: the compiled matcher returns exactly the value of that function
on the filename, the file is matched exactly when that value is truthy, and
the middleware each phase dispatches exactly the filenames on which the
predicate returns a truthy value (stated for an each hook that does not
mutate the collection, so that every matched filename survives to its
dispatch point). -/
theorem function_pattern_predicate {Rec Ctx V R : Type} (tr : R → Bool)
    (mm : String → MatchOptions → String → Bool) (p : String → R) (opts : MatchOptions)
    (bef : EndHook Rec V) (each : EachHook Rec V) (aft : EndHook Rec V)
    (files : FileMap Rec) (ctx : Ctx) (v : Option V) (hb : bef.result = .ok v)
    (heff : ∀ k r fs2, each.effect k r fs2 = fs2) :
    (∀ fname, filenameMatcher tr mm (.one (.fn p)) opts fname = .inr (p fname)) ∧
    (∀ fname, retTruthy tr (filenameMatcher tr mm (.one (.fn p)) opts fname)
      = tr (p fname)) ∧
    (middlewareRun bef each aft
        (fun fname => retTruthy tr (filenameMatcher tr mm (.one (.fn p)) opts fname))
        files ctx).eachInvs.map (fun inv => inv.filename)
      = ((bef.effect files).map Prod.fst).filter (fun fname => tr (p fname)) := by
  refine ⟨fun _ => rfl, fun _ => rfl, ?_⟩
  have hinvs := middlewareRun_eachInvs bef each aft
    (fun fname => retTruthy tr (filenameMatcher tr mm (.one (.fn p)) opts fname))
    files ctx v hb
  rw [hinvs, eachDispatch]
  refine ((dispatchEach_of_effect_id each ctx bef.dur heff _ _ ?_).1).trans ?_
  · intro k hk
    exact lookupFile_ne_none_of_mem (List.mem_filter.mp hk).1
  · rfl

/-- Predicate used by the C9 witness: returns the empty string (falsy) on
filename b and the filename itself (truthy) otherwise. -/
def predB (f : String) : String := if f = "b" then "" else f

/-- Witness for C9 at a concrete input: the compiled matcher built from the
predicate function dispatches exactly the filenames with a truthy
predicate value. -/
theorem function_pattern_predicate_witness :
    (middlewareRun (okHook : EndHook Unit String) noopEach okHook
      (fun fname => retTruthy (fun s : String => s != "")
        (filenameMatcher (fun s : String => s != "") (fun _ _ _ => false)
          (.one (.fn predB)) {} fname))
      filesABC ()).eachInvs.map (fun inv => inv.filename) = ["a", "c"] :=
  ((function_pattern_predicate (fun s : String => s != "") (fun _ _ _ => false) predB {}
      (okHook : EndHook Unit String) noopEach okHook filesABC () none rfl
      (fun _ _ _ => rfl)).2.2).trans rfl

end PluginKit
